import Mathlib

/-!
Verification of the merkleization / packing core of py-ssz (`ssz/utils.py`).

Byte strings are modelled as `List Nat` (each entry one byte value).
Python code that can raise is embedded with `Except String`.
-/

namespace SSZ

/-- A byte string: list of byte values. -/
abbrev Bytes := List Nat

/-- Modelled from the spec: `ssz/constants.py` is not under `src/`; spec §6 fixes the
chunk size constant at 32 bytes, system-wide. -/
def CHUNK_SIZE : Nat := 32

/-- Modelled from the spec: `ssz/constants.py` is not under `src/`; spec §6 fixes the
offset size constant at 4 bytes. -/
def OFFSET_SIZE : Nat := 4

/-- Constant `ZERO_BYTES32`: 32 zero bytes (utils.py line 29). -/
def ZERO_BYTES32 : Bytes := List.replicate 32 0

/-- Modelled from the spec: `ssz/constants.py` is not under `src/`; spec §4.2 says the
empty chunk constant is 32 zero bytes. -/
def EMPTY_CHUNK : Bytes := ZERO_BYTES32

/-- Modelled from the spec: `ssz/hash.py` is not under `src/`; spec §6 describes
`hash_eth2` as a designated cryptographic hash taking an arbitrary-length byte
string to a 32-byte digest.  Modelled as a fixed executable function whose output
always has length 32; no claim depends on particular digest values. -/
def hash_eth2 (b : Bytes) : Bytes :=
  let seed := b.foldl (fun acc x => (acc * 1099511628211 + x + 131) % 18446744073709551616)
    14695981039346656037
  (List.range 32).map (fun i => (seed / 2 ^ (8 * (i % 8)) + i * 1315423911) % 256)

/-- Python `int.bit_length()` for non-negative integers: the number of base-2
digits, counted by halving until zero (the fuel `n` always suffices since
`bit_length n ≤ n` for `n ≥ 1`). -/
def pyBitLengthAux : Nat → Nat → Nat
  | 0, _ => 0
  | fuel + 1, m => if m = 0 then 0 else pyBitLengthAux fuel (m / 2) + 1

/-- Python `int.bit_length()` for non-negative integers. -/
def pyBitLength (n : Nat) : Nat := pyBitLengthAux n n

/-- Python `bytes.ljust(width, b"\x00")`: pad on the right with zero bytes up to
`width`; never truncates. -/
def pyLjust (b : Bytes) (width : Nat) : Bytes := b ++ List.replicate (width - b.length) 0

/-! The zero-hash table as the code builds it.

Lines 30-32 of utils.py build `zerohashes` with the Python BUILTIN `hash`, not
`hash_eth2`.  The builtin returns an `int`, so entries 1..99 of the list are
integers, not 32-byte strings.  We model Python values that can be either a
byte string or an int with `PyVal`. -/

/-- A Python value that is either a byte string or an int (the two value kinds
appearing in the `zerohashes` list as the code builds it). -/
inductive PyVal where
  | bytes : Bytes → PyVal
  | int : Int → PyVal
deriving DecidableEq

/-- Modelled from the spec / Python semantics: the builtin `hash` on a bytes object
is SipHash keyed by the per-process `PYTHONHASHSEED`, so its numeric value is not
deterministic across runs; only the fact that it returns an `int` is observable
deterministically.  Represented by a fixed executable function; no claim depends
on its value. -/
def pyHashBytes (b : Bytes) : Int :=
  ((b.foldl (fun acc x => acc * 31 + x + 7) 17) % 2305843009213693951 : Nat)

/-- CPython `hash` on an `int`: reduction modulo `2^61 - 1`, preserving sign,
with `-1` mapped to `-2`. -/
def pyHashInt (n : Int) : Int :=
  let m : Int := 2305843009213693951
  let r := if n ≥ 0 then n % m else -((-n) % m)
  if r = -1 then -2 else r

/-- Python builtin `hash` on a `PyVal`; always returns an int. -/
def pyHash (v : PyVal) : PyVal :=
  .int (match v with
    | .bytes b => pyHashBytes b
    | .int n => pyHashInt n)

/-- Python `+` on two values of the same kind (bytes concatenation, or integer
addition); this is the only way `zerohashes[layer-1] + zerohashes[layer-1]`
is used, and it never raises since both operands are the same entry. -/
def pyAddSelf (v : PyVal) : PyVal :=
  match v with
  | .bytes b => .bytes (b ++ b)
  | .int n => .int (n + n)

/-- Table `zerohashes` exactly as utils.py lines 30-32 build it:
entry 0 is `ZERO_BYTES32`; entry `layer` for `layer ≥ 1` is
`hash(zerohashes[layer-1] + zerohashes[layer-1])` with the BUILTIN `hash`
(not `hash_eth2`), hence an int.  Presented as a function of the index;
the list holds indices 0..99, so reads beyond 99 raise `IndexError`
(see `getZerohash`). -/
def zerohashes : Nat → PyVal
  | 0 => .bytes ZERO_BYTES32
  | d + 1 => pyHash (pyAddSelf (zerohashes d))

/-- Read `zerohashes[layer]`: the Python list has entries 0..99. -/
def getZerohash (layer : Nat) : Except String PyVal :=
  if layer < 100 then .ok (zerohashes layer) else .error "IndexError"

/-! Offsets and length encoding. -/

/-- Python `int.to_bytes(n, "little")` for a non-negative int: the little-endian
digit expansion, `n` bytes; raises `OverflowError` when the value does not fit
(`to_bytes_le` below adds the check). -/
def leBytesLoop : Nat → Nat → Bytes
  | 0, _ => []
  | n + 1, x => x % 256 :: leBytesLoop n (x / 256)

/-- Python `int.to_bytes(n, "little")` including the overflow check. -/
def to_bytes_le (n : Nat) (x : Nat) : Except String Bytes :=
  if x < 256 ^ n then .ok (leBytesLoop n x) else .error "OverflowError"

/-- Function `encode_offset(offset)` (utils.py lines 51-52): little-endian `to_bytes` with `OFFSET_SIZE` bytes. -/
def encode_offset (offset : Nat) : Except String Bytes := to_bytes_le OFFSET_SIZE offset

/-- Function `decode_offset(data)` (utils.py lines 55-56): little-endian `int.from_bytes`. -/
def decode_offset (data : Bytes) : Nat := data.foldr (fun b acc => acc * 256 + b) 0

/-- Function `mix_in_length(root, length)` (utils.py lines 173-174):
`hash_eth2(root + length.to_bytes(CHUNK_SIZE, "little"))`. -/
def mix_in_length (root : Bytes) (length : Nat) : Except String Bytes := do
  let lb ← to_bytes_le CHUNK_SIZE length
  .ok (hash_eth2 (root ++ lb))

/-- Spec-side definition, following the spec text of §4.4 for
`little_endian_32_bytes(length)`: byte `i` is the `i`-th base-256 digit. -/
def little_endian_32_bytes (length : Nat) : Bytes :=
  (List.range 32).map (fun i => length / 256 ^ i % 256)

/-! The chunk packer. -/

/-- Function `get_items_per_chunk(item_size)` (utils.py lines 64-74).  The argument is an
`Int` so the negative branch is expressible. -/
def get_items_per_chunk (item_size : Int) : Except String Int :=
  if item_size < 0 then .error "ValueError: Item size must be positive integer"
  else if item_size = 0 then .ok 1
  else if (CHUNK_SIZE : Int) % item_size ≠ 0 then
    .error "ValueError: Item size must be a divisor of chunk size"
  else if item_size ≤ (CHUNK_SIZE : Int) then .ok ((CHUNK_SIZE : Int) / item_size)
  else .error "Invariant: unreachable"

/-- Spec-side definition for the amended C8, following its words: a negative or
positive-non-divisor size raises, zero returns 1, a positive divisor `s` returns
`CHUNK_SIZE / s`; `none` stands for a raise. -/
def items_per_chunk_amended (item_size : Int) : Option Int :=
  if item_size = 0 then some 1
  else if 0 < item_size ∧ (CHUNK_SIZE : Int) % item_size = 0 then
    some ((CHUNK_SIZE : Int) / item_size)
  else none

/-- Forget which error an `Except` carries. -/
def toOption : Except String α → Option α
  | .ok a => some a
  | .error _ => none

/-- Model of the toolz partition helper as used by `pack`: split `l` into consecutive
groups of `k` elements, the last group possibly shorter (the `b""` padding of the
original contributes no bytes to the subsequent `b"".join`). -/
def chunksOfAux (k : Nat) : Nat → List α → List (List α)
  | 0, _ => []
  | _, [] => []
  | fuel + 1, a :: t => (a :: t).take k :: chunksOfAux k fuel ((a :: t).drop k)

def chunksOf (k : Nat) (l : List α) : List (List α) := chunksOfAux k l.length l

/-- Function `pack(serialized_values)` (utils.py lines 77-95). -/
def pack (serialized_values : List Bytes) : Except String (List Bytes) :=
  if serialized_values.length = 0 then .ok [EMPTY_CHUNK]
  else do
    let item_size := (serialized_values.headD []).length
    let ipc ← get_items_per_chunk (item_size : Int)
    let items_per_chunk := ipc.toNat
    let number_of_items := serialized_values.length
    let number_of_chunks := (number_of_items + (items_per_chunk - 1)) / items_per_chunk
    let chunks_unpadded := (chunksOf items_per_chunk serialized_values).map List.flatten
    let full_chunks := chunks_unpadded.take (number_of_chunks - 1)
    match chunks_unpadded.drop (number_of_chunks - 1) with
    | [] => .error "StopIteration"
    | last_chunk :: rest =>
      if rest.length > 0 then .error "Invariant: all chunks have been taken"
      else .ok (full_chunks ++ [pyLjust last_chunk CHUNK_SIZE])

/-- Function `pack_bytes(byte_string)` (utils.py lines 98-114). -/
def pack_bytes (byte_string : Bytes) : List Bytes :=
  let size := byte_string.length
  if size = 0 then [EMPTY_CHUNK]
  else
    let number_of_full_chunks := size / CHUNK_SIZE
    let last_chunk_is_full := size % CHUNK_SIZE = 0
    let full_chunks := (List.range number_of_full_chunks).map
      (fun chunk_index => (byte_string.drop (chunk_index * CHUNK_SIZE)).take CHUNK_SIZE)
    if last_chunk_is_full then full_chunks
    else
      full_chunks ++ [pyLjust (byte_string.drop (number_of_full_chunks * CHUNK_SIZE)) CHUNK_SIZE]

/-- Spec-side definition for C6/C7: zero-pad a byte string on the right to a
multiple of `CHUNK_SIZE`. -/
def padToMultiple (b : Bytes) : Bytes :=
  b ++ List.replicate ((CHUNK_SIZE - b.length % CHUNK_SIZE) % CHUNK_SIZE) 0

/-! The Merkleizer.

`merkleize(chunks, pad_for=1)` (utils.py lines 136-170).  The nested `merge`
closure has a `while True` loop, embedded with fuel; the fuel argument is chosen
large enough that it is never exhausted (the loop raises its first `IndexError`
or `TypeError`, or breaks, before `layer` can pass `chunk_depth + leaf_index + 1`),
so the `"nontermination"` branch is unreachable and only keeps the recursion
structural. -/

/-- The `while True` body of `merge` (utils.py lines 145-154): returns the final
`(node, layer)` at the `break`, or the exception Python would raise.
`tmp_list[layer]` being `None` (never set) or a `zerohashes` entry being an int
both make the `+` on bytes raise `TypeError`. -/
def mergeLoop (chunk_count chunk_depth leaf_index : Nat) (tmp : List (Option Bytes)) :
    Nat → Bytes → Nat → Except String (Bytes × Nat)
  | 0, _, _ => .error "nontermination"
  | fuel + 1, node, layer =>
    if leaf_index &&& (1 <<< layer) = 0 then
      if leaf_index = chunk_count ∧ layer < chunk_depth then do
        match ← getZerohash layer with
        | .bytes z =>
          mergeLoop chunk_count chunk_depth leaf_index tmp fuel (hash_eth2 (node ++ z)) (layer + 1)
        | .int _ => .error "TypeError"
      else .ok (node, layer)
    else
      match tmp[layer]? with
      | none => .error "IndexError"
      | some none => .error "TypeError"
      | some (some t) =>
        mergeLoop chunk_count chunk_depth leaf_index tmp fuel (hash_eth2 (t ++ node)) (layer + 1)

/-- Function `merge(leaf, leaf_index)` (utils.py lines 142-155): run the loop, then store
the node at `tmp_list[layer]`. -/
def merge (chunk_count chunk_depth : Nat) (tmp : List (Option Bytes)) (leaf : Bytes)
    (leaf_index : Nat) : Except String (List (Option Bytes)) := do
  let (node, layer) ←
    mergeLoop chunk_count chunk_depth leaf_index tmp (chunk_depth + leaf_index + 2) leaf 0
  if layer < tmp.length then .ok (tmp.set layer (some node)) else .error "IndexError"

/-- The leaf loop of `merkleize` (utils.py lines 158-159): merge in chunk `i` at
leaf index `i`, left to right. -/
def mergeLeaves (chunk_count chunk_depth : Nat) :
    List (Option Bytes) → List Bytes → Nat → Except String (List (Option Bytes))
  | tmp, [], _ => .ok tmp
  | tmp, c :: rest, i => do
    let tmp2 ← merge chunk_count chunk_depth tmp c i
    mergeLeaves chunk_count chunk_depth tmp2 rest (i + 1)

/-- The final padding loop of `merkleize` (utils.py lines 167-168):
`tmp_list[layer+1] = hash_eth2(tmp_list[layer] + zerohashes[layer])` for
`layer` in `range(chunk_depth, max_depth)`; the second argument is the current
layer, the third the number of layers left. -/
def growLayers (tmp : List (Option Bytes)) : Nat → Nat → Except String (List (Option Bytes))
  | _, 0 => .ok tmp
  | layer, count + 1 =>
    match tmp[layer]? with
    | none => .error "IndexError"
    | some tval => do
      match tval, ← getZerohash layer with
      | some t, .bytes z =>
        if layer + 1 < tmp.length then
          growLayers (tmp.set (layer + 1) (some (hash_eth2 (t ++ z)))) (layer + 1) count
        else .error "IndexError"
      | _, _ => .error "TypeError"

/-- Function `merkleize(chunks, pad_for=1)` (utils.py lines 136-170).  `pad_for` is a `Nat`;
the model covers `pad_for ≥ 1` (for `pad_for = 0` the Python `(-1).bit_length() = 1`
differs from `pyBitLength 0`, a case no claim touches).  The final
`return tmp_list[max_depth]` returns `None` in Python when that slot was never
set; that is modelled as an error since it cannot yield a byte string. -/
def merkleize (chunks : List Bytes) (pad_for : Nat := 1) : Except String Bytes := do
  let chunk_count := chunks.length
  let chunk_depth := pyBitLength (chunk_count - 1)
  let max_depth := max chunk_depth (pyBitLength (pad_for - 1))
  let tmp0 : List (Option Bytes) := List.replicate (max_depth + 1) none
  let tmp1 ← mergeLeaves chunk_count chunk_depth tmp0 chunks 0
  let tmp2 ←
    if 1 <<< chunk_depth ≠ chunk_count then
      -- merge(zerohashes[0], chunk_count); zerohashes[0] is ZERO_BYTES32
      merge chunk_count chunk_depth tmp1 ZERO_BYTES32 chunk_count
    else .ok tmp1
  let tmp3 ← growLayers tmp2 chunk_depth (max_depth - chunk_depth)
  match tmp3[max_depth]? with
  | some (some root) => .ok root
  | _ => .error "None"

/-! Basic facts about the embedded definitions. -/

theorem hash_eth2_length (b : Bytes) : (hash_eth2 b).length = 32 := by
  simp [hash_eth2]

theorem zerohashes_zero : zerohashes 0 = .bytes ZERO_BYTES32 := rfl

/-- Every entry of the zero-hash table beyond index 0 is an int. -/
theorem zerohashes_succ_int (d : Nat) : ∃ n : Int, zerohashes (d + 1) = .int n := by
  cases h : pyAddSelf (zerohashes d) with
  | bytes b => exact ⟨pyHashBytes b, by simp [zerohashes, h, pyHash]⟩
  | int n => exact ⟨pyHashInt n, by simp [zerohashes, h, pyHash]⟩

theorem chunksOfAux_congr {k : Nat} (hk : 0 < k) :
    ∀ f1 : Nat, ∀ f2 : Nat, ∀ l : List α, l.length ≤ f1 → l.length ≤ f2 →
      chunksOfAux k f1 l = chunksOfAux k f2 l := by
  intro f1
  induction f1 with
  | zero =>
    intro f2 l h1 _
    have hl : l = [] := List.eq_nil_of_length_eq_zero (Nat.le_zero.mp h1)
    subst hl
    cases f2 <;> rfl
  | succ f ih =>
    intro f2 l h1 h2
    cases l with
    | nil => cases f2 <;> rfl
    | cons a t =>
      cases f2 with
      | zero => simp at h2
      | succ g =>
        show _ :: chunksOfAux k f _ = _ :: chunksOfAux k g _
        have hlen : ((a :: t).drop k).length ≤ f := by
          simp only [List.length_drop, List.length_cons] at *
          omega
        have hlen2 : ((a :: t).drop k).length ≤ g := by
          simp only [List.length_drop, List.length_cons] at *
          omega
        rw [ih _ _ hlen hlen2]

theorem chunksOf_nil (k : Nat) : chunksOf k ([] : List α) = [] := by
  cases k <;> rfl

theorem chunksOf_cons {l : List α} (h : l ≠ []) {k : Nat} (hk : 0 < k) :
    chunksOf k l = l.take k :: chunksOf k (l.drop k) := by
  cases l with
  | nil => exact absurd rfl h
  | cons a t =>
    show chunksOfAux k (t.length + 1) (a :: t) = _
    show _ :: chunksOfAux k t.length ((a :: t).drop k) = _
    rw [chunksOfAux_congr hk t.length ((a :: t).drop k).length _ (by simp; omega) le_rfl]
    rfl

/-! Support lemmas: little-endian encoding. -/

theorem leBytesLoop_length : ∀ n x : Nat, (leBytesLoop n x).length = n
  | 0, _ => rfl
  | n + 1, x => by simp [leBytesLoop, leBytesLoop_length n (x / 256)]

theorem leBytesLoop_zeroVal : ∀ n : Nat, leBytesLoop n 0 = List.replicate n 0
  | 0 => rfl
  | n + 1 => by simp [leBytesLoop, leBytesLoop_zeroVal n, List.replicate_succ]

theorem decode_leBytesLoop : ∀ n x : Nat, x < 256 ^ n → decode_offset (leBytesLoop n x) = x := by
  intro n
  induction n with
  | zero =>
    intro x hx
    interval_cases x
    rfl
  | succ n ih =>
    intro x hx
    have hdiv : x / 256 < 256 ^ n := by
      rw [Nat.div_lt_iff_lt_mul (by norm_num)]
      calc x < 256 ^ (n + 1) := hx
        _ = 256 ^ n * 256 := by ring
    show decode_offset (x % 256 :: leBytesLoop n (x / 256)) = x
    have : decode_offset (x % 256 :: leBytesLoop n (x / 256))
        = decode_offset (leBytesLoop n (x / 256)) * 256 + x % 256 := rfl
    rw [this, ih (x / 256) hdiv]
    omega

theorem leBytesLoop_eq_digits :
    ∀ n x : Nat, leBytesLoop n x = (List.range n).map (fun i => x / 256 ^ i % 256) := by
  intro n
  induction n with
  | zero => intro x; rfl
  | succ n ih =>
    intro x
    show x % 256 :: leBytesLoop n (x / 256) = _
    rw [List.range_succ_eq_map, List.map_cons, List.map_map]
    have hfun : ((fun i => x / 256 ^ i % 256) ∘ Nat.succ) = fun i => x / 256 / 256 ^ i % 256 := by
      funext i
      show x / 256 ^ (i + 1) % 256 = x / 256 / 256 ^ i % 256
      rw [Nat.div_div_eq_div_mul, ← pow_succ']
    rw [hfun, ← ih (x / 256)]
    norm_num

/-- Claim C10: offset codec round-trip: for `0 ≤ x < 2^32`, `encode_offset x`
returns a byte string of length exactly `OFFSET_SIZE = 4`, and
`decode_offset (encode_offset x) = x`. -/
theorem offset_roundtrip :
    ∀ x : Nat, x < 2 ^ 32 →
      ∃ b, encode_offset x = .ok b ∧ b.length = OFFSET_SIZE ∧ decode_offset b = x := by
  intro x hx
  have h4 : (256 : Nat) ^ 4 = 2 ^ 32 := by norm_num
  refine ⟨leBytesLoop 4 x, ?_, leBytesLoop_length 4 x, decode_leBytesLoop 4 x (h4 ▸ hx)⟩
  show to_bytes_le 4 x = _
  rw [to_bytes_le, if_pos (h4 ▸ hx)]

/-- Witness for C10 at `x = 305419896 = 0x12345678`. -/
theorem offset_roundtrip_witness :
    305419896 < 2 ^ 32 ∧
      ∃ b, encode_offset 305419896 = .ok b ∧ b.length = OFFSET_SIZE ∧ decode_offset b = 305419896 :=
  ⟨by norm_num, offset_roundtrip 305419896 (by norm_num)⟩

/-- Claim C9: for every 32-byte root and `0 ≤ length < 2^256`,
`mix_in_length root length` returns `hash_eth2(root || little_endian_32_bytes length)`
in a single hash invocation; in particular `mix_in_length root 0` equals
`H(root || 32 zero bytes)`. -/
theorem mix_in_length_correct :
    ∀ (root : Bytes) (length : Nat), length < 2 ^ 256 →
      mix_in_length root length = .ok (hash_eth2 (root ++ little_endian_32_bytes length)) ∧
      mix_in_length root 0 = .ok (hash_eth2 (root ++ ZERO_BYTES32)) := by
  intro root length hlt
  have h256 : (256 : Nat) ^ 32 = 2 ^ 256 := by norm_num
  constructor
  · show (do
        let lb ← to_bytes_le CHUNK_SIZE length
        pure (hash_eth2 (root ++ lb)) : Except String Bytes) = _
    rw [show to_bytes_le CHUNK_SIZE length = .ok (leBytesLoop 32 length) from
      if_pos (by rw [show CHUNK_SIZE = 32 from rfl, h256]; exact hlt)]
    show Except.ok (hash_eth2 (root ++ leBytesLoop 32 length)) = _
    rw [leBytesLoop_eq_digits 32 length]
    rfl
  · show (do
        let lb ← to_bytes_le CHUNK_SIZE 0
        pure (hash_eth2 (root ++ lb)) : Except String Bytes) = _
    rw [show to_bytes_le CHUNK_SIZE 0 = .ok (leBytesLoop 32 0) from
      if_pos (by positivity)]
    rw [leBytesLoop_zeroVal 32]
    rfl

/-- Witness for C9 at `root = [1, 2, 3]`, `length = 5`. -/
theorem mix_in_length_correct_witness :
    5 < 2 ^ 256 ∧
      (mix_in_length [1, 2, 3] 5 = .ok (hash_eth2 ([1, 2, 3] ++ little_endian_32_bytes 5)) ∧
        mix_in_length [1, 2, 3] 0 = .ok (hash_eth2 ([1, 2, 3] ++ ZERO_BYTES32))) :=
  ⟨by norm_num, mix_in_length_correct [1, 2, 3] 5 (by norm_num)⟩

/-- Counterexample to C8 as stated: for item size `0` (not a positive divisor of
`CHUNK_SIZE`), `get_items_per_chunk` does NOT raise; it returns `1`
(utils.py lines 67-68). -/
theorem get_items_per_chunk_zero_ok : get_items_per_chunk 0 = .ok 1 := rfl

/-- Helper for the amended C8: the full case behavior of `get_items_per_chunk`. -/
theorem get_items_per_chunk_cases :
    ∀ s : Int, toOption (get_items_per_chunk s) = items_per_chunk_amended s := by
  intro s
  by_cases hneg : s < 0
  · have h0 : ¬s = 0 := by omega
    have h1 : ¬(0 < s ∧ s ∣ (CHUNK_SIZE : Int)) := by
      rintro ⟨h, -⟩; omega
    simp [get_items_per_chunk, items_per_chunk_amended, hneg, h0, h1, toOption]
  · by_cases h0 : s = 0
    · subst h0; rfl
    · have hpos : 0 < s := by omega
      by_cases hd : (CHUNK_SIZE : Int) % s = 0
      · have hdvd : s ∣ (CHUNK_SIZE : Int) := Int.dvd_of_emod_eq_zero hd
        have hle : s ≤ (CHUNK_SIZE : Int) := by
          refine Int.le_of_dvd ?_ hdvd
          show (0 : Int) < (32 : Nat)
          norm_num
        simp [get_items_per_chunk, items_per_chunk_amended, hneg, h0, hd, hdvd, hle, hpos,
          toOption]
      · have h1 : ¬(0 < s ∧ s ∣ (CHUNK_SIZE : Int)) := by
          rintro ⟨-, h⟩; exact hd (Int.emod_eq_zero_of_dvd h)
        simp [get_items_per_chunk, items_per_chunk_amended, hneg, h0, hd, h1, toOption]

/-- Claim C1 (code bug): every `zerohashes` entry beyond index 0 is an `int`
produced by the Python builtin `hash`, not a 32-byte string produced by
`hash_eth2`; it therefore cannot equal `hash_eth2` of anything. -/
theorem zerohashes_built_with_builtin_hash :
    ∀ d : Nat, 1 ≤ d → d ≤ 99 → ∀ b : Bytes, zerohashes d ≠ PyVal.bytes b := by
  intro d h1 _ b
  obtain ⟨e, rfl⟩ : ∃ e, d = e + 1 := ⟨d - 1, by omega⟩
  obtain ⟨n, hn⟩ := zerohashes_succ_int e
  rw [hn]
  intro h
  exact PyVal.noConfusion h

/-- Witness for C1 at depth 1 against the value the claim asserts. -/
theorem zerohashes_built_with_builtin_hash_witness :
    (1 ≤ 1 ∧ 1 ≤ 99) ∧
      zerohashes 1 ≠ PyVal.bytes (hash_eth2 (ZERO_BYTES32 ++ ZERO_BYTES32)) :=
  ⟨⟨le_rfl, by norm_num⟩,
    zerohashes_built_with_builtin_hash 1 le_rfl (by norm_num) _⟩

/-- Claim C2 (code bug): `merkleize` is not total: on the single zero chunk with
`pad_for = 3` it raises `TypeError`, because the final padding loop concatenates
a byte string with the int `zerohashes[1]`. -/
theorem merkleize_not_total : merkleize [ZERO_BYTES32] 3 = .error "TypeError" := by rfl

/-- Claim C3: merkleizing the empty chunk sequence with the default pad target
yields the depth-0 zero hash, 32 zero bytes. -/
theorem merkleize_empty_is_zerohash :
    merkleize [] 1 = .ok ZERO_BYTES32 ∧ zerohashes 0 = .bytes ZERO_BYTES32 ∧
      ZERO_BYTES32 = List.replicate 32 0 :=
  ⟨rfl, rfl, rfl⟩

/-- Claim C5 (code bug): growing the virtual tree with `pad_for = 3` over the
empty chunk sequence raises `TypeError` (the level-1 zero hash is an int), instead
of appending zero-hash combination steps at the top as the claim requires. -/
theorem merkleize_padding_raises : merkleize [] 3 = .error "TypeError" := by rfl

/-! Support lemmas: flattening lists of uniform-size byte strings. -/

theorem flatten_length_uniform {s : Nat} :
    ∀ vals : List Bytes, (∀ v ∈ vals, v.length = s) → vals.flatten.length = vals.length * s := by
  intro vals
  induction vals with
  | nil => intro _; simp
  | cons a t ih =>
    intro h
    have ha := h a (List.mem_cons_self a t)
    have ht := ih (fun v hv => h v (List.mem_cons_of_mem a hv))
    simp only [List.flatten_cons, List.length_append, List.length_cons, ha, ht, Nat.succ_mul,
      Nat.add_comm]

theorem flatten_take_uniform {s : Nat} :
    ∀ (vals : List Bytes) (k : Nat), (∀ v ∈ vals, v.length = s) →
      (vals.take k).flatten = vals.flatten.take (k * s) := by
  intro vals
  induction vals with
  | nil => intro k _; simp
  | cons a t ih =>
    intro k h
    have ha := h a (List.mem_cons_self a t)
    have ht : ∀ v ∈ t, v.length = s := fun v hv => h v (List.mem_cons_of_mem a hv)
    cases k with
    | zero => simp
    | succ k =>
      show (a :: t.take k).flatten = ((a :: t).flatten).take ((k + 1) * s)
      rw [List.flatten_cons, List.flatten_cons, ih k ht, Nat.succ_mul,
        Nat.add_comm (k * s) s, List.take_add,
        List.take_append_of_le_length (show s ≤ a.length by omega),
        show List.take s a = a from List.take_of_length_le (by omega),
        List.drop_append_of_le_length (show s ≤ a.length by omega),
        show List.drop s a = [] from List.drop_of_length_le (by omega), List.nil_append]

theorem flatten_drop_uniform {s : Nat} :
    ∀ (vals : List Bytes) (k : Nat), (∀ v ∈ vals, v.length = s) →
      (vals.drop k).flatten = vals.flatten.drop (k * s) := by
  intro vals
  induction vals with
  | nil => intro k _; simp
  | cons a t ih =>
    intro k h
    have ha := h a (List.mem_cons_self a t)
    have ht : ∀ v ∈ t, v.length = s := fun v hv => h v (List.mem_cons_of_mem a hv)
    cases k with
    | zero => simp
    | succ k =>
      show (t.drop k).flatten = ((a :: t).flatten).drop ((k + 1) * s)
      rw [List.flatten_cons, ih k ht, Nat.succ_mul, Nat.add_comm (k * s) s, ← List.drop_drop,
        List.drop_append_of_le_length (show s ≤ a.length by omega),
        show List.drop s a = [] from List.drop_of_length_le (by omega), List.nil_append]

theorem chunksOf_length {k : Nat} (hk : 0 < k) :
    ∀ N : Nat, ∀ l : List α, l.length ≤ N →
      (chunksOf k l).length = (l.length + k - 1) / k := by
  intro N
  induction N with
  | zero =>
    intro l hl
    have : l = [] := List.eq_nil_of_length_eq_zero (Nat.le_zero.mp hl)
    subst this
    simp [chunksOf_nil, Nat.div_eq_of_lt (show k - 1 < k by omega)]
  | succ N ih =>
    intro l hl
    cases l with
    | nil => simp [chunksOf_nil, Nat.div_eq_of_lt (show k - 1 < k by omega)]
    | cons a t =>
      rw [chunksOf_cons (List.cons_ne_nil a t) hk, List.length_cons,
        ih ((a :: t).drop k) (by simp only [List.length_drop, List.length_cons] at hl ⊢; omega)]
      simp only [List.length_drop, List.length_cons]
      have hrhs : t.length + 1 + k - 1 = t.length + k := by omega
      have hlhs : (t.length + 1 - k + k - 1) / k = t.length / k := by
        rcases Nat.le_total k (t.length + 1) with hkn | hnk
        · congr 1; omega
        · have h1 : t.length + 1 - k = 0 := by omega
          rw [h1, Nat.zero_add, Nat.div_eq_of_lt (by omega), Nat.div_eq_of_lt (by omega)]
      rw [hlhs, hrhs, Nat.add_div_right _ hk]

/-- A nonempty byte string of length at most 32 makes a single 32-chunk. -/
theorem chunksOf_single {b : Bytes} (h1 : b ≠ []) (h2 : b.length ≤ 32) :
    chunksOf 32 b = [b] := by
  rw [chunksOf_cons h1 (by norm_num), List.take_of_length_le h2, List.drop_of_length_le h2,
    chunksOf_nil]

/-- Core of the `pack` correctness argument: chopping a uniform-size item list into
groups of `ipc` and flattening each group, then right-padding the final group,
is the same as zero-padding the whole concatenation to a multiple of 32 and
slicing it into 32-byte pieces. -/
theorem packCore {s ipc : Nat} (hs : 0 < s) (hmul : s * ipc = 32) :
    ∀ N : Nat, ∀ vals : List Bytes, vals.length ≤ N → vals ≠ [] →
      (∀ v ∈ vals, v.length = s) →
      ∃ pre lst, (chunksOf ipc vals).map List.flatten = pre ++ [lst] ∧
        pre ++ [pyLjust lst CHUNK_SIZE] = chunksOf 32 (padToMultiple vals.flatten) := by
  have hipc : 0 < ipc := by
    rcases Nat.eq_zero_or_pos ipc with h | h
    · subst h; omega
    · exact h
  intro N
  induction N with
  | zero =>
    intro vals hlen hne _
    exact absurd (List.eq_nil_of_length_eq_zero (Nat.le_zero.mp hlen)) hne
  | succ N ih =>
    intro vals hlen hne huni
    have hnpos : 0 < vals.length := List.length_pos.mpr hne
    have hflen : vals.flatten.length = vals.length * s := flatten_length_uniform vals huni
    by_cases hn : vals.length ≤ ipc
    · -- single group
      have hchunks : chunksOf ipc vals = [vals] := by
        rw [chunksOf_cons hne hipc, List.take_of_length_le hn, List.drop_of_length_le hn,
          chunksOf_nil]
      refine ⟨[], vals.flatten, by rw [hchunks]; rfl, ?_⟩
      have hflb : 0 < vals.flatten.length := by
        rw [hflen]; exact Nat.mul_pos hnpos hs
      have hfub : vals.flatten.length ≤ 32 := by
        rw [hflen, ← hmul, Nat.mul_comm s ipc]
        exact Nat.mul_le_mul_right s hn
      have hpad : padToMultiple vals.flatten = pyLjust vals.flatten CHUNK_SIZE := by
        show vals.flatten ++ _ = vals.flatten ++ _
        congr 2
        show (32 - vals.flatten.length % 32) % 32 = 32 - vals.flatten.length
        omega
      rw [hpad, List.nil_append]
      refine (chunksOf_single ?_ ?_).symm
      · show pyLjust vals.flatten CHUNK_SIZE ≠ []
        have : (pyLjust vals.flatten CHUNK_SIZE).length = 32 := by
          show (vals.flatten ++ _).length = 32
          rw [List.length_append, List.length_replicate]
          show vals.flatten.length + (32 - vals.flatten.length) = 32
          omega
        intro hcon
        rw [hcon] at this
        simp at this
      · show (vals.flatten ++ _).length ≤ 32
        rw [List.length_append, List.length_replicate]
        show vals.flatten.length + (32 - vals.flatten.length) ≤ 32
        omega
    · -- at least two groups
      push_neg at hn
      have hdropne : vals.drop ipc ≠ [] := by
        rw [← List.length_pos, List.length_drop]; omega
      have hdroplen : (vals.drop ipc).length ≤ N := by
        rw [List.length_drop]; omega
      have hdropuni : ∀ v ∈ vals.drop ipc, v.length = s :=
        fun v hv => huni v (List.mem_of_mem_drop hv)
      obtain ⟨pre', lst', h1', h2'⟩ := ih (vals.drop ipc) hdroplen hdropne hdropuni
      refine ⟨(vals.take ipc).flatten :: pre', lst', ?_, ?_⟩
      · rw [chunksOf_cons hne hipc, List.map_cons, h1']
        rfl
      · have hipcs : ipc * s = 32 := by rw [Nat.mul_comm]; exact hmul
        have hfl32 : 32 ≤ vals.flatten.length := by
          rw [hflen, ← hipcs]
          exact Nat.mul_le_mul_right s (by omega)
        have hflne : vals.flatten ≠ [] := by
          rw [← List.length_pos]; omega
        have hpadne : padToMultiple vals.flatten ≠ [] := by
          show vals.flatten ++ _ ≠ []
          simp [hflne]
        rw [List.cons_append, chunksOf_cons hpadne (by norm_num)]
        have htake : (padToMultiple vals.flatten).take 32 = (vals.take ipc).flatten := by
          show (vals.flatten ++ _).take 32 = _
          rw [List.take_append_of_le_length hfl32, flatten_take_uniform vals ipc huni, hipcs]
        have hdrop : (padToMultiple vals.flatten).drop 32 =
            padToMultiple ((vals.drop ipc).flatten) := by
          show (vals.flatten ++ _).drop 32 = (vals.drop ipc).flatten ++ _
          rw [List.drop_append_of_le_length hfl32, flatten_drop_uniform vals ipc huni, hipcs]
          congr 2
          show (32 - vals.flatten.length % 32) % 32
            = (32 - (vals.flatten.drop 32).length % 32) % 32
          rw [List.length_drop]
          omega
        rw [htake, hdrop, ← h2']

theorem bind_ok_eq {ε α β : Type} (a : α) (f : α → Except ε β) :
    (Except.ok (ε := ε) a >>= f) = f a := rfl

theorem bind_error_eq {ε α β : Type} (e : ε) (f : α → Except ε β) :
    (Except.error (α := α) e >>= f) = Except.error e := rfl

/-- Helper: `pack` on a nonempty uniform-size item list equals slicing the zero-padded
concatenation of the items into 32-byte pieces, and the number of chunks is
`ceil (number of items / items per chunk)`. -/
theorem pack_eq_of_uniform {s : Nat} (hs : 0 < s) (hmod : CHUNK_SIZE % s = 0) :
    ∀ vals : List Bytes, vals ≠ [] → (∀ v ∈ vals, v.length = s) →
      pack vals = .ok (chunksOf 32 (padToMultiple vals.flatten)) ∧
      (chunksOf 32 (padToMultiple vals.flatten)).length
        = (vals.length + CHUNK_SIZE / s - 1) / (CHUNK_SIZE / s) := by
  intro vals hne huni
  have hdvd : s ∣ 32 := Nat.dvd_of_mod_eq_zero hmod
  have hmul : s * (32 / s) = 32 := Nat.mul_div_cancel' hdvd
  have hipc : 0 < 32 / s := by
    rcases Nat.eq_zero_or_pos (32 / s) with h | h
    · rw [h, Nat.mul_zero] at hmul; omega
    · exact h
  obtain ⟨pre, lst, h1, h2⟩ := packCore hs hmul vals.length vals le_rfl hne huni
  have hnoc : (vals.length + (32 / s - 1)) / (32 / s) = pre.length + 1 := by
    have hlen := chunksOf_length hipc vals.length vals le_rfl
    have hmap : ((chunksOf (32 / s) vals).map List.flatten).length = pre.length + 1 := by
      rw [h1]; simp
    rw [List.length_map, hlen] at hmap
    have harg : vals.length + (32 / s - 1) = vals.length + 32 / s - 1 := by omega
    rw [harg, hmap]
  have hne0 : ¬vals.length = 0 := by rw [List.length_eq_zero]; exact hne
  have hheadmem : vals.headD [] ∈ vals := by
    cases vals with
    | nil => exact absurd rfl hne
    | cons a t => exact List.mem_cons_self a t
  have hsize : (vals.headD []).length = s := huni _ hheadmem
  have hgipc : get_items_per_chunk ((vals.headD []).length : Int) = .ok ((32 / s : Nat) : Int) := by
    rw [hsize, get_items_per_chunk]
    rw [if_neg (by omega), if_neg (by omega)]
    have hmodz : (CHUNK_SIZE : Int) % (s : Int) = 0 := by
      rw [← Int.natCast_mod, hmod]
      rfl
    rw [if_neg (by omega)]
    have hle : s ≤ 32 := Nat.le_of_dvd (by norm_num) hdvd
    rw [if_pos (show (s : Int) ≤ (CHUNK_SIZE : Int) by
      show (s : Int) ≤ ((32 : Nat) : Int); omega)]
    rw [show (CHUNK_SIZE : Int) / (s : Int) = ((CHUNK_SIZE / s : Nat) : Int) from
      (Int.natCast_div CHUNK_SIZE s).symm]
    rfl
  constructor
  · rw [pack, if_neg hne0]
    simp only [hgipc, bind_ok_eq, Int.toNat_natCast]
    rw [h1, hnoc, Nat.add_sub_cancel, List.take_left, List.drop_left]
    show (if (0 : Nat) > 0 then _ else Except.ok (pre ++ [pyLjust lst CHUNK_SIZE])) = _
    rw [if_neg (by omega), h2]
  · have hlen2 : (chunksOf 32 (padToMultiple vals.flatten)).length = pre.length + 1 := by
      rw [← h2]
      simp
    rw [hlen2]
    show pre.length + 1 = (vals.length + 32 / s - 1) / (32 / s)
    have harg : vals.length + 32 / s - 1 = vals.length + (32 / s - 1) := by omega
    rw [harg, hnoc]

/-- Claim C8 (amended): `get_items_per_chunk` raises for negative sizes and for
positive non-divisors of `CHUNK_SIZE` (which covers every size exceeding
`CHUNK_SIZE`), and hence `pack` on a non-empty sequence of items of a positive
non-divisor size raises as well; for size `0` it returns `1` (it does not
raise), and for every positive divisor `s` it returns `CHUNK_SIZE / s`. -/
theorem get_items_per_chunk_behavior :
    (∀ s : Int, toOption (get_items_per_chunk s) = items_per_chunk_amended s) ∧
    (∀ (vals : List Bytes) (s : Nat), vals ≠ [] → (∀ v ∈ vals, v.length = s) →
      0 < s → CHUNK_SIZE % s ≠ 0 → ∃ e, pack vals = .error e) := by
  refine ⟨get_items_per_chunk_cases, ?_⟩
  intro vals s hne huni hs hmod
  have hne0 : ¬vals.length = 0 := by rw [List.length_eq_zero]; exact hne
  have hheadmem : vals.headD [] ∈ vals := by
    cases vals with
    | nil => exact absurd rfl hne
    | cons a t => exact List.mem_cons_self a t
  have hsize : (vals.headD []).length = s := huni _ hheadmem
  have hgipc : get_items_per_chunk ((vals.headD []).length : Int)
      = .error "ValueError: Item size must be a divisor of chunk size" := by
    rw [hsize, get_items_per_chunk, if_neg (by omega), if_neg (by omega)]
    rw [if_pos (show (CHUNK_SIZE : Int) % (s : Int) ≠ 0 by
      rw [← Int.natCast_mod]
      exact_mod_cast hmod)]
  refine ⟨"ValueError: Item size must be a divisor of chunk size", ?_⟩
  rw [pack, if_neg hne0]
  simp only [hgipc, bind_error_eq]

/-- Witness for the amended C8 with one 5-byte item (5 does not divide 32). -/
theorem get_items_per_chunk_behavior_witness :
    (([[1, 2, 3, 4, 5]] : List Bytes) ≠ [] ∧
      (∀ v ∈ ([[1, 2, 3, 4, 5]] : List Bytes), v.length = 5) ∧
      0 < 5 ∧ CHUNK_SIZE % 5 ≠ 0) ∧
    ∃ e, pack [[1, 2, 3, 4, 5]] = .error e :=
  ⟨⟨by decide, by decide, by decide, by decide⟩,
    get_items_per_chunk_behavior.2 [[1, 2, 3, 4, 5]] 5 (by decide) (by decide) (by decide)
      (by decide)⟩

/-- Claim C6: `pack` on a nonempty sequence of same-size items (size a positive
divisor of `CHUNK_SIZE`) returns exactly `ceil (len items / (CHUNK_SIZE / s))`
chunks, equal to slicing the zero-padded concatenation of all items into
consecutive 32-byte pieces; on the empty sequence it returns the single
32-zero-byte empty chunk. -/
theorem pack_shape :
    pack [] = .ok [EMPTY_CHUNK] ∧
    ∀ (vals : List Bytes) (s : Nat), vals ≠ [] → 0 < s → CHUNK_SIZE % s = 0 →
      (∀ v ∈ vals, v.length = s) →
      pack vals = .ok (chunksOf CHUNK_SIZE (padToMultiple vals.flatten)) ∧
      (chunksOf CHUNK_SIZE (padToMultiple vals.flatten)).length
        = (vals.length + CHUNK_SIZE / s - 1) / (CHUNK_SIZE / s) := by
  refine ⟨rfl, ?_⟩
  intro vals s hne hs hmod huni
  exact pack_eq_of_uniform hs hmod vals hne huni

/-- Witness for C6 with one 16-byte item. -/
theorem pack_shape_witness :
    ([[0, 1, 2, 3, 4, 5, 6, 7, 8, 9, 10, 11, 12, 13, 14, 15]] : List Bytes) ≠ [] ∧
      0 < 16 ∧ CHUNK_SIZE % 16 = 0 ∧
      (∀ v ∈ ([[0, 1, 2, 3, 4, 5, 6, 7, 8, 9, 10, 11, 12, 13, 14, 15]] : List Bytes),
        v.length = 16) ∧
      (pack [[0, 1, 2, 3, 4, 5, 6, 7, 8, 9, 10, 11, 12, 13, 14, 15]]
          = .ok (chunksOf CHUNK_SIZE (padToMultiple
              ([[0, 1, 2, 3, 4, 5, 6, 7, 8, 9, 10, 11, 12, 13, 14, 15]] : List Bytes).flatten)) ∧
        (chunksOf CHUNK_SIZE (padToMultiple
            ([[0, 1, 2, 3, 4, 5, 6, 7, 8, 9, 10, 11, 12, 13, 14, 15]] : List Bytes).flatten)).length
          = (1 + CHUNK_SIZE / 16 - 1) / (CHUNK_SIZE / 16)) :=
  ⟨by decide, by decide, by decide, by decide,
    pack_shape.2 [[0, 1, 2, 3, 4, 5, 6, 7, 8, 9, 10, 11, 12, 13, 14, 15]] 16
      (by decide) (by decide) (by decide) (by decide)⟩

/-- Claim C4: a single chunk merkleizes to itself with no hashing, and packing
four 8-byte items gives exactly that single chunk, returned unchanged by
`merkleize` with `pad_for = 1`. -/
theorem merkleize_single_chunk_identity :
    (∀ c : Bytes, merkleize [c] 1 = .ok c) ∧
    (∀ a b c d : Bytes, a.length = 8 → b.length = 8 → c.length = 8 → d.length = 8 →
      pack [a, b, c, d] = .ok [a ++ b ++ c ++ d] ∧
      merkleize [a ++ b ++ c ++ d] 1 = .ok (a ++ b ++ c ++ d)) := by
  have hsingle : ∀ c : Bytes, merkleize [c] 1 = .ok c := fun _ => rfl
  refine ⟨hsingle, ?_⟩
  intro a b c d ha hb hc hd
  have huni : ∀ v ∈ ([a, b, c, d] : List Bytes), v.length = 8 := by
    intro v hv
    rcases hv with _ | ⟨_, _ | ⟨_, _ | ⟨_, _ | ⟨_, h⟩⟩⟩⟩
    exacts [ha, hb, hc, hd, absurd h (List.not_mem_nil v)]
  obtain ⟨heq, -⟩ := pack_eq_of_uniform (show 0 < 8 by norm_num)
    (show CHUNK_SIZE % 8 = 0 from rfl) [a, b, c, d] (by simp) huni
  have hflat : ([a, b, c, d] : List Bytes).flatten = a ++ b ++ c ++ d := by simp
  have hflen : (a ++ b ++ c ++ d).length = 32 := by simp [ha, hb, hc, hd]
  have hpad : padToMultiple (a ++ b ++ c ++ d) = a ++ b ++ c ++ d := by
    show (a ++ b ++ c ++ d) ++ _ = _
    rw [show (CHUNK_SIZE - (a ++ b ++ c ++ d).length % CHUNK_SIZE) % CHUNK_SIZE = 0 by
      rw [hflen]; rfl, List.replicate_zero, List.append_nil]
  have hchunks : chunksOf 32 (a ++ b ++ c ++ d) = [a ++ b ++ c ++ d] := by
    refine chunksOf_single ?_ (by omega)
    intro hcon
    rw [hcon] at hflen
    simp at hflen
  rw [hflat] at heq
  exact ⟨by rw [heq, hpad, hchunks], hsingle _⟩

/-- Witness for C4 with four concrete 8-byte items. -/
theorem merkleize_single_chunk_identity_witness :
    ([1, 1, 1, 1, 1, 1, 1, 1] : Bytes).length = 8 ∧
      ([2, 2, 2, 2, 2, 2, 2, 2] : Bytes).length = 8 ∧
      ([3, 3, 3, 3, 3, 3, 3, 3] : Bytes).length = 8 ∧
      ([4, 4, 4, 4, 4, 4, 4, 4] : Bytes).length = 8 ∧
      (pack [[1, 1, 1, 1, 1, 1, 1, 1], [2, 2, 2, 2, 2, 2, 2, 2], [3, 3, 3, 3, 3, 3, 3, 3],
          [4, 4, 4, 4, 4, 4, 4, 4]]
        = .ok [[1, 1, 1, 1, 1, 1, 1, 1] ++ [2, 2, 2, 2, 2, 2, 2, 2] ++ [3, 3, 3, 3, 3, 3, 3, 3]
            ++ [4, 4, 4, 4, 4, 4, 4, 4]] ∧
      merkleize ([[1, 1, 1, 1, 1, 1, 1, 1] ++ [2, 2, 2, 2, 2, 2, 2, 2] ++ [3, 3, 3, 3, 3, 3, 3, 3]
            ++ [4, 4, 4, 4, 4, 4, 4, 4]]) 1
        = .ok ([1, 1, 1, 1, 1, 1, 1, 1] ++ [2, 2, 2, 2, 2, 2, 2, 2] ++ [3, 3, 3, 3, 3, 3, 3, 3]
            ++ [4, 4, 4, 4, 4, 4, 4, 4])) :=
  ⟨rfl, rfl, rfl, rfl,
    merkleize_single_chunk_identity.2 [1, 1, 1, 1, 1, 1, 1, 1] [2, 2, 2, 2, 2, 2, 2, 2]
      [3, 3, 3, 3, 3, 3, 3, 3] [4, 4, 4, 4, 4, 4, 4, 4] rfl rfl rfl rfl⟩

/-! Support lemmas for the `pack_bytes` round-trip. -/

theorem rangeSlices_flatten :
    ∀ (n : Nat) (b : Bytes),
      ((List.range n).map (fun i => (b.drop (i * 32)).take 32)).flatten = b.take (n * 32) := by
  intro n
  induction n with
  | zero => intro b; simp
  | succ n ih =>
    intro b
    rw [List.range_succ, List.map_append, List.flatten_append, ih b]
    simp only [List.map_cons, List.map_nil, List.flatten_cons, List.flatten_nil, List.append_nil]
    rw [Nat.succ_mul, List.take_add]

/-- The concatenation of the chunks `pack_bytes` returns is the input followed by
the zero padding that rounds its length up to a multiple of 32. -/
theorem pack_bytes_flatten (b : Bytes) (hne : b ≠ []) :
    (pack_bytes b).flatten = b ++ List.replicate ((32 - b.length % 32) % 32) 0 := by
  have hlen0 : ¬b.length = 0 := by rw [List.length_eq_zero]; exact hne
  rw [pack_bytes]
  simp only [if_neg hlen0, CHUNK_SIZE]
  by_cases hmod : b.length % 32 = 0
  · rw [if_pos hmod, rangeSlices_flatten]
    show b.take (b.length / 32 * 32) = _
    rw [Nat.div_mul_cancel (Nat.dvd_of_mod_eq_zero hmod), List.take_length]
    have : (32 - b.length % 32) % 32 = 0 := by omega
    rw [this, List.replicate_zero, List.append_nil]
  · rw [if_neg hmod, List.flatten_append, rangeSlices_flatten]
    simp only [List.flatten_cons, List.flatten_nil, List.append_nil]
    show b.take (b.length / 32 * 32)
        ++ (b.drop (b.length / 32 * 32) ++ List.replicate (32 - (b.drop (b.length / 32 * 32)).length) 0)
      = _
    rw [← List.append_assoc, List.take_append_drop, List.length_drop]
    congr 2
    have := Nat.mod_lt b.length (show 0 < 32 by norm_num)
    have := Nat.div_mul_le_self b.length 32
    have hsub : b.length - b.length / 32 * 32 = b.length % 32 := by omega
    rw [hsub]
    omega

/-- Claim C7: for every byte string, concatenating the chunks of `pack_bytes` and
trimming the zero padding beyond the original length reproduces the input; when
the length is a positive multiple of 32 no padding is added at all (full chunks
are never padded). -/
theorem pack_bytes_roundtrip :
    ∀ b : Bytes, ((pack_bytes b).flatten).take b.length = b ∧
      (b.length % CHUNK_SIZE = 0 → b ≠ [] → (pack_bytes b).flatten = b) := by
  intro b
  by_cases hne : b = []
  · subst hne
    exact ⟨rfl, fun _ h => absurd rfl h⟩
  · constructor
    · rw [pack_bytes_flatten b hne]
      exact List.take_left b _
    · intro hmod _
      rw [pack_bytes_flatten b hne]
      have : (32 - b.length % 32) % 32 = 0 := by
        have : b.length % CHUNK_SIZE = b.length % 32 := rfl
        omega
      rw [this, List.replicate_zero, List.append_nil]

/-- Witness for C7 at a 3-byte input and a 32-byte input. -/
theorem pack_bytes_roundtrip_witness :
    ((pack_bytes [5, 6, 7]).flatten).take 3 = [5, 6, 7] ∧
      (pack_bytes (List.replicate 32 9)).flatten = List.replicate 32 9 := by
  have h1 := pack_bytes_roundtrip [5, 6, 7]
  have h2 := pack_bytes_roundtrip (List.replicate 32 9)
  exact ⟨h1.1, h2.2 (by simp [CHUNK_SIZE]) (by simp)⟩

end SSZ
